import Mathlib

/-!
Verification development for the changelog generation engine of the
`doctor` repository (Rust sources `src/changelog/git.rs`, `src/changelog.rs`).

The Rust code is shallowly embedded: each Rust function of the changelog
core becomes an executable Lean definition over explicit models of the
external collaborators (the libgit2 repository handle, the GitHub REST
client, the process environment).  Rust panics (`unwrap` / `expect`) and
`ErrorKind` failures are made explicit in a `RunError` sum, so fallible
code returns `Except RunError _`.
-/

namespace Doctor

/-- Error outcomes of the embedded code.  `git` and `noTags` model
`ErrorKind::Git` / `ErrorKind::NoTags` (declared in the crate's `error.rs`,
which only re-exports the kinds used here); `panicked` models a Rust panic
raised by `unwrap` / `expect`, carrying the panic message. -/
inductive RunError where
  | git : RunError
  | noTags : RunError
  | panicked : String → RunError
deriving DecidableEq, Repr

/-- Model of the external `semver` crate's parsed `Version`, restricted to
the numeric `MAJOR.MINOR.PATCH` core used by this repository's tags
(pre-release / build suffixes are treated as parse failures). -/
structure SemVer where
  major : Nat
  minor : Nat
  patch : Nat
deriving DecidableEq, Repr

/-! #### String primitives

Lean core's `String.splitOn`, `trim`, `replace`, `startsWith` and
`toLower` are compiled by well-founded recursion and do not reduce inside
the kernel, so the Rust string primitives are modelled structurally over
the character list instead (observably the same functions on the ASCII
data handled here). -/

/-- Rust `str::split(sep)` for a one-character pattern: `n` separators
yield `n + 1` pieces (the empty string yields one empty piece). -/
def splitChar (sep : Char) : List Char → List (List Char)
  | [] => [[]]
  | c :: rest =>
    let r := splitChar sep rest
    if c = sep then [] :: r
    else
      match r with
      | [] => [[c]]
      | w :: ws => (c :: w) :: ws

/-- `splitChar` on strings. -/
def strSplit (sep : Char) (s : String) : List String :=
  (splitChar sep s.toList).map String.mk

/-- Character-list core of `strStartsWith`: the first list is an initial
segment of the second. -/
def strStartsWithAux : List Char → List Char → Bool
  | [], _ => true
  | _ :: _, [] => false
  | p :: ps, c :: cs => p == c && strStartsWithAux ps cs

/-- Rust `str::starts_with` for a string pattern. -/
def strStartsWith (s pat : String) : Bool :=
  strStartsWithAux pat.toList s.toList

/-- Rust `str::trim`: strip whitespace from both ends. -/
def strTrim (s : String) : String :=
  String.mk
    (((s.toList.dropWhile Char.isWhitespace).reverse.dropWhile
        Char.isWhitespace).reverse)

/-- Rust `str::replace(pat, "")` for a one-character pattern: drop every
occurrence of the character. -/
def strRemoveChar (ch : Char) (s : String) : String :=
  String.mk (s.toList.filter (fun c => !(c == ch)))

/-- Rust `str::to_lowercase` on the ASCII data handled here. -/
def strToLower (s : String) : String := String.mk (s.toList.map Char.toLower)

/-- A semver numeric identifier: nonempty, all ASCII digits, no leading zero. -/
def isNumericIdent (s : String) : Bool :=
  s.length != 0 && s.toList.all Char.isDigit &&
    !(s.length > 1 && s.toList.headD 'x' == '0')

/-- Digit string to `Nat` (only meaningful when `isNumericIdent`). -/
def digitsToNat (s : String) : Nat :=
  s.toList.foldl (fun n c => n * 10 + (c.toNat - '0'.toNat)) 0

/-- Model of `semver::Version::parse` (external collaborator): accepts
exactly `MAJOR.MINOR.PATCH` with numeric identifiers. -/
def SemVer.parse (s : String) : Option SemVer :=
  match strSplit '.' s with
  | [a, b, c] =>
    if isNumericIdent a && isNumericIdent b && isNumericIdent c then
      some ⟨digitsToNat a, digitsToNat b, digitsToNat c⟩
    else none
  | _ => none

/-- Stable insertion into a sorted list: the new element goes before the
first element it is `le`-below-or-equivalent-to, i.e. after everything
strictly smaller and before equivalents that came later in the input. -/
def insertSorted (le : α → α → Bool) (x : α) : List α → List α
  | [] => [x]
  | y :: ys => if le x y then x :: y :: ys else y :: insertSorted le x ys

/-- Stable sort by a total preorder.  Rust's `sort_by` is a stable sort
and the stable-sorted permutation is unique for a total preorder, so this
structural insertion sort denotes exactly the `sort_by` result (Lean's
`List.mergeSort` is avoided only because its well-founded recursion does
not reduce in the kernel). -/
def insertionSort (le : α → α → Bool) : List α → List α
  | [] => []
  | x :: xs => insertSorted le x (insertionSort le xs)

theorem mem_insertSorted (le : α → α → Bool) (x a : α) :
    ∀ (l : List α), a ∈ insertSorted le x l ↔ a = x ∨ a ∈ l := by
  intro l
  induction l with
  | nil => simp [insertSorted]
  | cons y ys ih =>
    simp only [insertSorted]
    by_cases h : le x y = true
    · rw [if_pos h]
      simp [List.mem_cons]
    · rw [if_neg h]
      simp only [List.mem_cons, ih]
      tauto

theorem mem_insertionSort (le : α → α → Bool) (a : α) :
    ∀ (l : List α), a ∈ insertionSort le l ↔ a ∈ l := by
  intro l
  induction l with
  | nil => simp [insertionSort]
  | cons x xs ih =>
    simp only [insertionSort, mem_insertSorted, List.mem_cons, ih]

theorem pairwise_insertSorted (le : α → α → Bool)
    (htrans : ∀ a b c, le a b = true → le b c = true → le a c = true)
    (htotal : ∀ a b, (le a b || le b a) = true) (x : α) :
    ∀ (l : List α), l.Pairwise (fun a b => le a b = true) →
      (insertSorted le x l).Pairwise (fun a b => le a b = true) := by
  intro l
  induction l with
  | nil => intro _; simp [insertSorted]
  | cons y ys ih =>
    intro hp
    rw [List.pairwise_cons] at hp
    simp only [insertSorted]
    by_cases h : le x y = true
    · rw [if_pos h, List.pairwise_cons]
      refine ⟨?_, List.pairwise_cons.mpr hp⟩
      intro b hb
      rcases List.mem_cons.mp hb with rfl | hb
      · exact h
      · exact htrans x y b h (hp.1 b hb)
    · rw [if_neg h, List.pairwise_cons]
      constructor
      · intro b hb
        rcases (mem_insertSorted le x b ys).mp hb with hbx | hb
        · rw [hbx]
          have hxy := htotal x y
          rw [Bool.or_eq_true] at hxy
          rcases hxy with h1 | h1
          · exact absurd h1 h
          · exact h1
        · exact hp.1 b hb
      · exact ih hp.2

theorem pairwise_insertionSort (le : α → α → Bool)
    (htrans : ∀ a b c, le a b = true → le b c = true → le a c = true)
    (htotal : ∀ a b, (le a b || le b a) = true) :
    ∀ (l : List α),
      (insertionSort le l).Pairwise (fun a b => le a b = true) := by
  intro l
  induction l with
  | nil => simp [insertionSort]
  | cons x xs ih =>
    exact pairwise_insertSorted le htrans htotal x (insertionSort le xs) ih

/-- Model of `Version::cmp`'s `≤` on the numeric core: lexicographic on
(major, minor, patch). -/
def SemVer.le (a b : SemVer) : Bool :=
  a.major < b.major ||
    (a.major == b.major &&
      (a.minor < b.minor || (a.minor == b.minor && a.patch ≤ b.patch)))

theorem SemVer.le_trans (a b c : SemVer) (hab : SemVer.le a b = true)
    (hbc : SemVer.le b c = true) : SemVer.le a c = true := by
  simp only [SemVer.le, Bool.or_eq_true, Bool.and_eq_true, decide_eq_true_eq,
    beq_iff_eq] at hab hbc ⊢
  omega

theorem SemVer.le_total (a b : SemVer) :
    (SemVer.le a b || SemVer.le b a) = true := by
  simp only [SemVer.le, Bool.or_eq_true, Bool.and_eq_true, decide_eq_true_eq,
    beq_iff_eq]
  omega

/-- Model of the read-only libgit2 repository handle (`git2::Repository`)
together with the chrono formatting collaborator.  Commits and tags are
addressed by strings.  `tag_names` models `repo.tag_names(None)` (in the
iteration order libgit2 exposes); `tagTarget` models
`revparse_single` + `peel_to_commit` on a tag name (`none` = the revparse
fails with `ErrorKind::Git`); `parent` is the first parent of a commit
(`commit.parent(0)`, `none` for a root commit); `message` models
`commit.message()` (`none` = message not valid UTF-8); `authorOf` models
`commit.author().name()`; `timeOf` models `commit.time().seconds()`;
`fmtDate` models `chrono`'s
`NaiveDateTime::from_timestamp(..).format("%Y-%m-%d")`. -/
structure GitRepo where
  tag_names : List String
  tagTarget : String → Option String
  parent : String → Option String
  message : String → Option String
  authorOf : String → Option String
  timeOf : String → Int
  fmtDate : Int → String

/-- Model of `repo.revwalk()` pushed at `c`: the first-parent reverse
chronological chain starting at (and including) `c`.  `fuel` bounds the
walk so the definition is total; with enough fuel the walk ends at the
root commit. -/
def revwalkFrom (repo : GitRepo) : String → Nat → List String
  | c, 0 => [c]
  | c, fuel + 1 =>
    match repo.parent c with
    | none => [c]
    | some p => c :: revwalkFrom repo p fuel

theorem revwalkFrom_ne_nil (repo : GitRepo) (c : String) (fuel : Nat) :
    revwalkFrom repo c fuel ≠ [] := by
  cases fuel with
  | zero => simp [revwalkFrom]
  | succ n =>
    simp only [revwalkFrom]
    cases repo.parent c <;> simp

theorem revwalkFrom_head (repo : GitRepo) (c : String) (fuel : Nat) :
    (revwalkFrom repo c fuel).head? = some c := by
  cases fuel with
  | zero => simp [revwalkFrom]
  | succ n =>
    simp only [revwalkFrom]
    cases repo.parent c <;> simp

/-- In a reverse walk, an element with no parent can only be the final
element: the walk either stops right after it (root) or was truncated at
it by the fuel. -/
theorem revwalkFrom_root_last (repo : GitRepo) (e : String) :
    ∀ (fuel : Nat) (c : String), e ∈ revwalkFrom repo c fuel →
      repo.parent e = none → (revwalkFrom repo c fuel).getLast? = some e := by
  intro fuel
  induction fuel with
  | zero =>
    intro c hmem _hroot
    simp only [revwalkFrom, List.mem_singleton] at hmem
    simp [revwalkFrom, hmem]
  | succ n ih =>
    intro c hmem hroot
    simp only [revwalkFrom] at hmem ⊢
    cases hp : repo.parent c with
    | none =>
      rw [hp] at hmem
      simp only [List.mem_singleton] at hmem
      simp [hmem]
    | some p =>
      rw [hp] at hmem
      simp only [List.mem_cons] at hmem
      rcases hmem with rfl | hmem
      · rw [hroot] at hp; exact absurd hp (by simp)
      · obtain ⟨x, xs, hx⟩ :=
          List.exists_cons_of_ne_nil (revwalkFrom_ne_nil repo p n)
        show (c :: revwalkFrom repo p n).getLast? = some e
        rw [hx, List.getLast?_cons_cons, ← hx]
        exact ih p hmem hroot

/-- `TagAndVersion` from `git.rs`: the `(package, version)` split of a tag
name. -/
structure TagAndVersion where
  package : String
  version : String
deriving DecidableEq, Repr

/-- `get_version` (`git.rs` lines 104-114): splits a tag name on `'@'`.
`package_list.get(1).unwrap()` panics when the tag contains no `'@'`;
`package_list.last().unwrap()` cannot fail (`split` is never empty). -/
def get_version (tag : String) : Except RunError TagAndVersion :=
  let package_list := strSplit '@' tag
  match package_list.get? 1 with
  | none => .error (.panicked "called Option.unwrap on a None value")
  | some second =>
    .ok { package := "@" ++ second, version := (package_list.getLast?).getD "" }

/-- The semantic version carried by a tag name, as `get_version` extracts
it (the part after the last `'@'`). -/
def tag_semver (tag : String) : Option SemVer :=
  match get_version tag with
  | .ok tv => SemVer.parse tv.version
  | .error _e => none

/-- The `filter_map` body shared by `sort_tags` and `get_tag_list`
(`git.rs` lines 120-126 and 143-148): pair each tag with its parsed
version, silently dropping tags whose version fails to parse; the embedded
`get_version` call can still panic. -/
def collect_tag_versions : List String → Except RunError (List (String × SemVer))
  | [] => .ok []
  | t :: rest =>
    match get_version t with
    | .error e => .error e
    | .ok tv =>
      match collect_tag_versions rest with
      | .error e => .error e
      | .ok pairs =>
        match SemVer.parse tv.version with
        | some v => .ok ((t, v) :: pairs)
        | none => .ok pairs

/-- `sort_tags` (`git.rs` lines 116-133): keep the tags whose embedded
version parses, sort ascending by that version (Rust `sort_by` is a
stable sort, modelled by `insertionSort`), return the tag names. -/
def sort_tags (tags : List String) : Except RunError (List String) :=
  match collect_tag_versions tags with
  | .error e => .error e
  | .ok pairs =>
    .ok ((insertionSort (fun a b => SemVer.le a.2 b.2) pairs).map (fun p => p.1))

/-- `get_tag_list` (`git.rs` lines 135-160): the repository's tag names
filtered by the package prefix, then exactly the `sort_tags` pipeline
(the source inlines the identical filter-parse-sort logic). -/
def get_tag_list (repo : GitRepo) (package_name : String) :
    Except RunError (List String) :=
  sort_tags (repo.tag_names.filter (fun x => strStartsWith x package_name))

/-- `Tag` (`git.rs` lines 15-20): a tag name plus the `%Y-%m-%d` date of
the commit it points to. -/
structure Tag where
  name : String
  date_time : String
deriving DecidableEq, Repr

/-- `CommitRange` (`git.rs` lines 37-43): a release window.  `start` and
`end_` are the boundary commits (hashes in the model; `end` is a Lean
keyword, hence `end_`). -/
structure CommitRange where
  latest_tag : Tag
  start : String
  end_ : String
deriving DecidableEq, Repr

/-- `Commit` (`git.rs` lines 45-52); the `chrono` `DateTime<Utc>` is
modelled by its Unix timestamp. -/
structure Commit where
  message : String
  hash : String
  author : Option String
  datetime : Int
deriving DecidableEq, Repr

/-- The `CommitRange` construction shared verbatim by
`get_commit_latest_range` (`git.rs` lines 202-222) and `get_all_tag_range`
(lines 277-297): boundary commits plus a `Tag` naming the newer tag and
dating it by its target commit. -/
def mk_range (repo : GitRepo) (start_str start_hash end_hash : String) :
    CommitRange :=
  { start := start_hash
    end_ := end_hash
    latest_tag :=
      { date_time := repo.fmtDate (repo.timeOf start_hash)
        name := start_str } }

/-- The boundary-resolution `match (start_str, end)` block shared verbatim
by `get_commit_latest_range` (`git.rs` lines 184-200) and
`get_all_tag_range` (lines 259-275).  With no older tag, the end object is
`revwalk.push(start.id())` followed by `.nth(0)` — the first commit the
walk yields, which is `start` itself.  `revparse_single` failures become
`ErrorKind::Git`; the subsequent `peel_to_commit().expect(..)` is folded
into `tagTarget` (the model addresses tags by their target commit). -/
def resolve_range (repo : GitRepo) (fuel : Nat) (start_str : String)
    (end_opt : Option String) : Except RunError CommitRange :=
  match end_opt with
  | none =>
    match repo.tagTarget start_str with
    | none => .error .git
    | some start_hash =>
      match (revwalkFrom repo start_hash fuel).head? with
      | none => .error .git
      | some oid => .ok (mk_range repo start_str start_hash oid)
  | some end_str =>
    match repo.tagTarget start_str with
    | none => .error .git
    | some start_hash =>
      match repo.tagTarget end_str with
      | none => .error .git
      | some end_hash => .ok (mk_range repo start_str start_hash end_hash)

/-- `get_commit_latest_range` (`git.rs` lines 162-225): sort the package's
tags and pair the newest against the second newest (or, with a single tag,
against the first commit yielded by a reverse walk from it). -/
def get_commit_latest_range (repo : GitRepo) (package_name : String)
    (fuel : Nat) : Except RunError CommitRange :=
  match sort_tags (repo.tag_names.filter
      (fun x => strStartsWith x package_name)) with
  | .error e => .error e
  | .ok tags =>
    let len := tags.length
    match len with
    | 0 => .error .noTags
    | 1 =>
      match tags.get? (len - 1) with
      | none => .error (.panicked "Tag should have a value.")
      | some start_str => resolve_range repo fuel start_str none
    | _ + 2 =>
      match tags.get? (len - 1) with
      | none => .error (.panicked "Tag should have a value.")
      | some start_str => resolve_range repo fuel start_str (tags.get? (len - 2))

/-- The `while cr_list.len() < len - 1` loop of `get_all_tag_range`
(`git.rs` lines 246-299), recursing on the number of windows still to
build (`rem` starts at `len - 1`; the loop iteration with `cr_list.len()
= k` has `rem = len - 1 - k`).  Windows are appended newest-first, so the
window built at `k` is consed onto those built later. -/
def all_range_loop (repo : GitRepo) (fuel : Nat) (tags : List String) :
    Nat → Except RunError (List CommitRange)
  | 0 => .ok []
  | rem + 1 =>
    let len := tags.length
    let k := len - 1 - (rem + 1)
    let pair : Except RunError (Option String × Option String) :=
      match len with
      | 0 => .error .noTags
      | 1 => .ok (tags.get? (len - k - 1), none)
      | _ + 2 => .ok (tags.get? (len - k - 1), tags.get? (len - k - 2))
    match pair with
    | .error e => .error e
    | .ok (start_opt, end_opt) =>
      match start_opt with
      | none => .error (.panicked "Tag should have a value.")
      | some start_str =>
        match resolve_range repo fuel start_str end_opt with
        | .error e => .error e
        | .ok cr =>
          match all_range_loop repo fuel tags rem with
          | .error e => .error e
          | .ok rest => .ok (cr :: rest)

/-- `get_all_tag_range` (`git.rs` lines 236-302).  With no tags at all the
Rust guard `cr_list.len() < len - 1` underflows (release build), admits
the loop once and hits the `0 => Err(NoTags)` match arm, modelled by the
explicit emptiness check. -/
def get_all_tag_range (repo : GitRepo) (package_name : String) (fuel : Nat) :
    Except RunError (List CommitRange) :=
  match get_tag_list repo package_name with
  | .error e => .error e
  | .ok tags =>
    if tags.length = 0 then .error .noTags
    else all_range_loop repo fuel tags (tags.length - 1)

/-- The hashes the walk of `get_commit_list_by_commit_range` traverses
before the `break` on the (exclusive) end boundary: the prefix of the
reverse walk strictly before the first occurrence of `end_hash`, or the
whole walk when `end_is_first_commit`. -/
def traversedHashes (end_hash : String) (end_is_first_commit : Bool) :
    List String → List String
  | [] => []
  | c :: rest =>
    if end_hash == c && !end_is_first_commit then []
    else c :: traversedHashes end_hash end_is_first_commit rest

/-- The `for commit in revwalk` loop of `get_commit_list_by_commit_range`
(`git.rs` lines 321-338): break (excluding it) at the end boundary unless
it is the root commit; convert each commit to a `Commit` record, failing
the whole walk with `ErrorKind::Git` when a message is undecodable. -/
def commit_walk_loop (repo : GitRepo) (end_hash : String)
    (end_is_first_commit : Bool) : List String → Except RunError (List Commit)
  | [] => .ok []
  | c :: rest =>
    if end_hash == c && !end_is_first_commit then .ok []
    else
      match repo.message c with
      | none => .error .git
      | some m =>
        match commit_walk_loop repo end_hash end_is_first_commit rest with
        | .error e => .error e
        | .ok commits =>
          .ok ({ message := m, hash := c, author := repo.authorOf c,
                 datetime := repo.timeOf c } :: commits)

/-- `get_commit_list_by_commit_range` (`git.rs` lines 304-341):
`end_is_first_commit` is whether `end.parent(0)` fails (root commit); the
walk starts at the window's start boundary. -/
def get_commit_list_by_commit_range (repo : GitRepo) (commit_range : CommitRange)
    (fuel : Nat) : Except RunError (List Commit) :=
  let end_is_first_commit := (repo.parent commit_range.end_).isNone
  commit_walk_loop repo commit_range.end_ end_is_first_commit
    (revwalkFrom repo commit_range.start fuel)

/-- Outcome of one `reqwest` GET against the GitHub REST API
(`changelog.rs` lines 252-262): `sendErr` models `send()` returning `Err`
(transport failure — the code `unwrap`s it); `jsonErr` models a response
whose body does not deserialize as `GithubPull` (error responses, rate
limiting, malformed JSON); `success login` models a parsed pull request
whose submitter login is `login`. -/
inductive HttpOutcome where
  | sendErr : HttpOutcome
  | jsonErr : HttpOutcome
  | success : String → HttpOutcome
deriving DecidableEq, Repr

/-- The mutable/environmental state of `Changelogs` (`changelog.rs` lines
10-16) relevant to the core: the author-to-login memo map
(`author_github_map`, modelled as an association list where insertion
conses, shadowing older entries exactly as `HashMap::insert` replaces),
the repository web URL and slug resolved at startup, the
`GITHUB_TOKEN` environment variable (`none` = unset, so
`env::var(..).expect(..)` panics), and the REST collaborator keyed by
request URL. -/
structure ChangelogState where
  author_github_map : List (String × String)
  github_html_url : String
  repo_name : String
  token : Option String
  http : String → HttpOutcome

/-- The pull-request detail URL built in `get_pr_user_name`
(`changelog.rs` lines 245-250).  The leading space in
`" https://api.github.com/repos/"` is in the source. -/
def pull_request_url (st : ChangelogState) (pr_number : String) : String :=
  " https://api.github.com/repos/" ++ st.repo_name ++ "/pulls/" ++
    (strTrim (strRemoveChar '#' pr_number))

/-- `get_pr_user_name` (`changelog.rs` lines 243-278): if the author is
not in the memo map, issue the REST lookup — `send().unwrap()` panics on
a transport error, a body that fails to deserialize is skipped, a success
is cached under the raw author string — then return the (possibly just
cached) mapping for the author, falling back to the author string. -/
def get_pr_user_name (st : ChangelogState) (pr_number author : String) :
    Except RunError (String × ChangelogState) :=
  let finish : ChangelogState → Except RunError (String × ChangelogState) :=
    fun st1 =>
      match st1.author_github_map.lookup author with
      | some mapped => .ok (mapped, st1)
      | none => .ok (author, st1)
  match st.author_github_map.lookup author with
  | some _ => finish st
  | none =>
    match st.token with
    | none => .error (.panicked "GITHUB_TOKEN 未找到")
    | some _tok =>
      match st.http (pull_request_url st pr_number) with
      | .sendErr => .error (.panicked "called Result.unwrap on an Err value")
      | .jsonErr => finish st
      | .success login =>
        finish { st with author_github_map :=
                  (author, login) :: st.author_github_map }

/-- First match of the regex `\(#[0-9]*\)` (`changelog.rs` line 197) in a
character list: a literal `(#`, a maximal digit run (the digit class
excludes `)`, so greedy matching needs exactly the next character to close
it), then `)`.  Failure at one start position moves one character right,
exactly the regex engine's leftmost-match scan.  Returns the full matched
text. -/
def scanPr : List Char → Option (List Char)
  | [] => none
  | c :: rest =>
    if c = '(' then
      match rest with
      | '#' :: rest2 =>
        let run := rest2.takeWhile Char.isDigit
        match rest2.drop run.length with
        | ')' :: _ => some ('(' :: '#' :: (run ++ [')']))
        | _ => scanPr rest
      | _ => scanPr rest
    else scanPr rest

/-- `get_md_message` (`changelog.rs` lines 185-238): first message line,
trimmed; `commit.author().as_ref().expect("author 不存在")` panics on a
missing author; `&md_hash[0..7]` panics when the hash is shorter than 7
bytes; with a pull-request reference the attribution is resolved through
`get_pr_user_name`, otherwise the short-hash commit link is used. -/
def get_md_message (st : ChangelogState) (commit : Commit) :
    Except RunError (String × ChangelogState) :=
  let message := strTrim ((strSplit '\n' commit.message).headD "")
  match commit.author with
  | none => .error (.panicked "author 不存在")
  | some author =>
    let md_hash := strTrim commit.hash
    if md_hash.length < 7 then
      .error (.panicked "byte index 7 is out of bounds")
    else
      let short_md_hash := md_hash.take 7
      match scanPr message.toList with
      | some mtch =>
        let pr_id := strRemoveChar ')' (strRemoveChar '(' (String.mk mtch))
        match get_pr_user_name st pr_id author with
        | .error e => .error e
        | .ok (github_user_id, st1) =>
          let pr_url := st.github_html_url ++ "/pull/" ++ pr_id
          .ok (message ++ ". [" ++ pr_id ++ "](" ++ pr_url ++ ") [@" ++
                github_user_id ++ "](https://github.com/" ++ github_user_id ++
                ")", st1)
      | none =>
        let commit_or_pr_url := st.github_html_url ++ "/commit/" ++
          short_md_hash
        .ok (message ++ ". [" ++ short_md_hash ++ "](" ++ commit_or_pr_url ++
              ")", st)

/-- The character class `[fix|feat]` of the classifier regex
(`changelog.rs` line 53): a bracket class, i.e. any single one of these
characters (`|` included literally), not the alternation `fix|feat`. -/
def feClassChars : List Char := ['f', 'i', 'x', '|', 'e', 'a', 't']

/-- The scope capture class `[0-9a-zA-Z_]` (ASCII; note `-` is absent). -/
def isWordChar (c : Char) : Bool := c.isAlphanum || c == '_'

/-- First match of the classifier regex `[fix|feat]\(([0-9a-zA-Z_]*)\)`
(`changelog.rs` line 53) in a character list, returning capture group 1
(the scope token).  One class character, `(`, a maximal word-character
run (the class excludes `)`, so greedy matching succeeds exactly when the
next character closes the group), then `)`; failure moves the start one
character right, the regex engine's leftmost scan. -/
def scanScope : List Char → Option (List Char)
  | [] => none
  | c :: rest =>
    if feClassChars.contains c then
      match rest with
      | '(' :: rest2 =>
        let run := rest2.takeWhile isWordChar
        match rest2.drop run.length with
        | ')' :: _ => some run
        | _ => scanScope rest
      | _ => scanScope rest
    else scanScope rest

/-- The per-commit classification predicate of
`gen_change_log_by_commit_list` (`changelog.rs` lines 53-67):
`re.is_match(message)` and the first match's capture group 1, lowercased,
equals the package name. -/
def commit_matches (package message : String) : Bool :=
  match scanScope message.toList with
  | some cap => strToLower (String.mk cap) == package
  | none => false

/-- The commit-selection semantics of the `for commit in commit_list` loop
of `gen_change_log_by_commit_list` (`changelog.rs` lines 49-75): the
commits whose first message line passes `commit_matches` and whose hash
has not been seen (`commit_hash_map`), in input order. -/
def classify_commits_aux (package : String) :
    List Commit → List String → List Commit
  | [], _ => []
  | commit :: rest, seen =>
    let message := (strSplit '\n' commit.message).headD ""
    let hash := commit.hash
    if commit_matches package message && !(seen.contains hash) then
      commit :: classify_commits_aux package rest (hash :: seen)
    else classify_commits_aux package rest seen

/-- Commit selection of the classifier starting from an empty
`commit_hash_map`. -/
def classify_commits (package : String) (commit_list : List Commit) :
    List Commit :=
  classify_commits_aux package commit_list []

/-- The loop of `gen_change_log_by_commit_list` (`changelog.rs` lines
49-75), threading the `Changelogs` state (mutated by `get_md_message`'s
author lookups) and the local `commit_hash_map` (the `seen` list). -/
def gen_change_log_loop (package : String) :
    ChangelogState → List Commit → List String →
      Except RunError (List String × ChangelogState)
  | st, [], _ => .ok ([], st)
  | st, commit :: rest, seen =>
    let message := (strSplit '\n' commit.message).headD ""
    let hash := commit.hash
    let need_insert_message := commit_matches package message
    if need_insert_message && !(seen.contains hash) then
      match get_md_message st commit with
      | .error e => .error e
      | .ok (md_message, st1) =>
        match gen_change_log_loop package st1 rest (hash :: seen) with
        | .error e => .error e
        | .ok (changelog_list, st2) => .ok (md_message :: changelog_list, st2)
    else gen_change_log_loop package st rest seen

/-- `gen_change_log_by_commit_list` (`changelog.rs` lines 40-78). -/
def gen_change_log_by_commit_list (st : ChangelogState)
    (commit_list : List Commit) (package : String) :
    Except RunError (List String × ChangelogState) :=
  gen_change_log_loop package st commit_list []

/-- Mapping `get_md_message` over an already-selected commit list,
threading the state: the denotation `gen_change_log_by_commit_list`
factors through (`classify_commits` for selection, then this). -/
def md_mapM : ChangelogState → List Commit →
    Except RunError (List String × ChangelogState)
  | st, [] => .ok ([], st)
  | st, commit :: rest =>
    match get_md_message st commit with
    | .error e => .error e
    | .ok (md_message, st1) =>
      match md_mapM st1 rest with
      | .error e => .error e
      | .ok (changelog_list, st2) => .ok (md_message :: changelog_list, st2)

/-- `gen_change_log_to_md` (`changelog.rs` lines 79-89): prefix each entry
with `"* "` and append a newline, accumulating into one string. -/
def gen_change_log_to_md (change_logs : List String) : String :=
  change_logs.foldl
    (fun md_file_content changelog =>
      md_file_content ++ ("* " ++ changelog ++ "\n")) ""

/-- Comparison of optional semantic versions (used to state sortedness of
the tag index: absent versions never occur among returned tags). -/
def semver_le_opt : Option SemVer → Option SemVer → Bool
  | some a, some b => SemVer.le a b
  | _, _ => false

/-! ### Walker lemmas -/

theorem walk_loop_ok_map_hash (repo : GitRepo) (e : String) (eif : Bool) :
    ∀ (l : List String) (cs : List Commit),
      commit_walk_loop repo e eif l = .ok cs →
      cs.map Commit.hash = traversedHashes e eif l := by
  intro l
  induction l with
  | nil =>
    intro cs h
    simp only [commit_walk_loop, Except.ok.injEq] at h
    simp [traversedHashes, ← h]
  | cons c rest ih =>
    intro cs h
    simp only [commit_walk_loop] at h
    simp only [traversedHashes]
    by_cases hcond : (e == c && !eif) = true
    · rw [if_pos hcond] at h ⊢
      simp only [Except.ok.injEq] at h
      simp [← h]
    · rw [if_neg hcond] at h ⊢
      cases hm : repo.message c with
      | none => rw [hm] at h; exact absurd h (by simp)
      | some m =>
        rw [hm] at h
        cases hrec : commit_walk_loop repo e eif rest with
        | error err => rw [hrec] at h; exact absurd h (by simp)
        | ok commits =>
          rw [hrec] at h
          simp only [Except.ok.injEq] at h
          rw [← h]
          simp only [List.map_cons]
          rw [ih commits hrec]

theorem walk_loop_msg_none_error (repo : GitRepo) (e : String) (eif : Bool) :
    ∀ (l : List String), (∃ c ∈ traversedHashes e eif l, repo.message c = none) →
      commit_walk_loop repo e eif l = .error .git := by
  intro l
  induction l with
  | nil =>
    intro h
    simp [traversedHashes] at h
  | cons c rest ih =>
    intro h
    simp only [traversedHashes] at h
    simp only [commit_walk_loop]
    by_cases hcond : (e == c && !eif) = true
    · rw [if_pos hcond] at h
      simp at h
    · rw [if_neg hcond] at h ⊢
      rcases h with ⟨x, hx, hmsg⟩
      rcases List.mem_cons.mp hx with rfl | hx
      · rw [hmsg]
      · cases hm : repo.message c with
        | none => rfl
        | some m => rw [ih ⟨x, hx, hmsg⟩]

theorem traversed_not_mem_end (e : String) :
    ∀ (l : List String), e ∉ traversedHashes e false l := by
  intro l
  induction l with
  | nil => simp [traversedHashes]
  | cons c rest ih =>
    simp only [traversedHashes, Bool.not_false, Bool.and_true]
    by_cases hc : (e == c) = true
    · rw [if_pos hc]; simp
    · rw [if_neg hc]
      intro hmem
      rcases List.mem_cons.mp hmem with rfl | hmem
      · exact hc (by simp)
      · exact ih hmem

theorem traversed_root_all (e : String) :
    ∀ (l : List String), traversedHashes e true l = l := by
  intro l
  induction l with
  | nil => rfl
  | cons c rest ih => simp [traversedHashes, ih]

/-! ### Classifier lemmas -/

theorem classify_aux_not_mem_seen (package : String) :
    ∀ (l : List Commit) (seen : List String) (c : Commit),
      c ∈ classify_commits_aux package l seen → c.hash ∉ seen := by
  intro l
  induction l with
  | nil => intro seen c h; simp [classify_commits_aux] at h
  | cons commit rest ih =>
    intro seen c h
    simp only [classify_commits_aux] at h
    by_cases hcond : (commit_matches package
        ((strSplit '\n' commit.message).headD "") &&
        !(seen.contains commit.hash)) = true
    · rw [if_pos hcond] at h
      rcases List.mem_cons.mp h with rfl | h
      · simp only [Bool.and_eq_true, Bool.not_eq_true'] at hcond
        intro hmem
        have hc2 := hcond.2
        simp at hc2
        exact hc2 hmem
      · have := ih (commit.hash :: seen) c h
        intro hmem
        exact this (List.mem_cons_of_mem _ hmem)
    · rw [if_neg hcond] at h
      exact ih seen c h

theorem classify_aux_nodup (package : String) :
    ∀ (l : List Commit) (seen : List String),
      ((classify_commits_aux package l seen).map Commit.hash).Nodup := by
  intro l
  induction l with
  | nil => intro seen; simp [classify_commits_aux]
  | cons commit rest ih =>
    intro seen
    simp only [classify_commits_aux]
    by_cases hcond : (commit_matches package
        ((strSplit '\n' commit.message).headD "") &&
        !(seen.contains commit.hash)) = true
    · rw [if_pos hcond]
      simp only [List.map_cons, List.nodup_cons]
      refine ⟨?_, ih (commit.hash :: seen)⟩
      intro hmem
      rcases List.mem_map.mp hmem with ⟨c, hc, hh⟩
      have := classify_aux_not_mem_seen package rest (commit.hash :: seen) c hc
      exact this (by rw [hh]; exact List.mem_cons_self _ _)
    · rw [if_neg hcond]
      exact ih seen

theorem classify_aux_sublist (package : String) :
    ∀ (l : List Commit) (seen : List String),
      List.Sublist (classify_commits_aux package l seen) l := by
  intro l
  induction l with
  | nil => intro seen; simp [classify_commits_aux]
  | cons commit rest ih =>
    intro seen
    simp only [classify_commits_aux]
    by_cases hcond : (commit_matches package
        ((strSplit '\n' commit.message).headD "") &&
        !(seen.contains commit.hash)) = true
    · rw [if_pos hcond]
      exact List.Sublist.cons₂ commit (ih (commit.hash :: seen))
    · rw [if_neg hcond]
      exact List.Sublist.cons commit (ih seen)

theorem gen_change_log_loop_factors (package : String) :
    ∀ (l : List Commit) (st : ChangelogState) (seen : List String),
      gen_change_log_loop package st l seen =
        md_mapM st (classify_commits_aux package l seen) := by
  intro l
  induction l with
  | nil => intro st seen; rfl
  | cons commit rest ih =>
    intro st seen
    simp only [gen_change_log_loop, classify_commits_aux]
    by_cases hcond : (commit_matches package
        ((strSplit '\n' commit.message).headD "") &&
        !(seen.contains commit.hash)) = true
    · rw [if_pos hcond, if_pos hcond]
      simp only [md_mapM]
      cases get_md_message st commit with
      | error e => rfl
      | ok p =>
        cases p with
        | mk md st1 => simp only; rw [ih st1 (commit.hash :: seen)]
    · rw [if_neg hcond, if_neg hcond]
      exact ih st seen

/-! ### Tag index lemmas -/

theorem get_version_ok_of_at (t : String) (h : 2 ≤ (strSplit '@' t).length) :
    ∃ tv, get_version t = .ok tv := by
  cases hg : (strSplit '@' t).get? 1 with
  | none =>
    rw [List.get?_eq_none] at hg
    omega
  | some s =>
    refine ⟨{ package := "@" ++ s,
              version := ((strSplit '@' t).getLast?).getD "" }, ?_⟩
    simp only [get_version, hg]

theorem collect_ok_of_at :
    ∀ (l : List String), (∀ t ∈ l, 2 ≤ (strSplit '@' t).length) →
      ∃ pairs, collect_tag_versions l = .ok pairs ∧
        ∀ p ∈ pairs, p.1 ∈ l ∧ tag_semver p.1 = some p.2 := by
  intro l
  induction l with
  | nil => intro _; exact ⟨[], rfl, by simp⟩
  | cons t rest ih =>
    intro hall
    obtain ⟨tv, htv⟩ := get_version_ok_of_at t (hall t (List.mem_cons_self t rest))
    obtain ⟨pairs, hpairs, hmem⟩ :=
      ih (fun x hx => hall x (List.mem_cons_of_mem t hx))
    simp only [collect_tag_versions, htv, hpairs]
    cases hparse : SemVer.parse tv.version with
    | none =>
      refine ⟨pairs, rfl, ?_⟩
      intro p hp
      exact ⟨List.mem_cons_of_mem t (hmem p hp).1, (hmem p hp).2⟩
    | some v =>
      refine ⟨(t, v) :: pairs, rfl, ?_⟩
      intro p hp
      rcases List.mem_cons.mp hp with rfl | hp
      · refine ⟨List.mem_cons_self t rest, ?_⟩
        simp only [tag_semver, htv, hparse]
      · exact ⟨List.mem_cons_of_mem t (hmem p hp).1, (hmem p hp).2⟩

/-! ### Concrete fixtures

A small repository with three releases of package `p` (history
`c3 → c2 → c1`, `c1` the root), a malformed-version tag `p@zzz` and a tag
of another package, plus `Changelogs` states for the three REST outcomes. -/

def repoDemo : GitRepo :=
  { tag_names := ["p@1.0.0", "p@2.0.0", "x@9.9.9", "p@1.1.0", "p@zzz"]
    tagTarget := fun t =>
      if t = "p@2.0.0" then some "c3" else
      if t = "p@1.1.0" then some "c2" else
      if t = "p@1.0.0" then some "c1" else none
    parent := fun c =>
      if c = "c3" then some "c2" else
      if c = "c2" then some "c1" else none
    message := fun c => some ("commit " ++ c)
    authorOf := fun _ => some "alice"
    timeOf := fun _ => 1700000000
    fmtDate := fun _ => "2023-11-14" }

/-- Same history, but commit `c2`'s message is not decodable. -/
def repoBadMsg : GitRepo :=
  { repoDemo with message := fun c => if c = "c2" then none else some "m" }

/-- A repository holding a single tag of package `p`, pointing at `c2`
whose parent is `c1`. -/
def repoOneTag : GitRepo :=
  { repoDemo with
    tag_names := ["p@1.0.0"]
    tagTarget := fun t => if t = "p@1.0.0" then some "c2" else none }

/-- A repository whose only tag has no `'@'` separator. -/
def repoNoAt : GitRepo := { repoDemo with tag_names := ["v1.0.0"] }

/-- A `Changelogs` state whose REST lookups return undeserializable
bodies. -/
def stDemo : ChangelogState :=
  { author_github_map := []
    github_html_url := "https://github.com/acme/widgets"
    repo_name := "acme/widgets"
    token := some "t0ken"
    http := fun _u => .jsonErr }

/-- A `Changelogs` state whose REST lookups fail at the transport level
(`send()` returns `Err`). -/
def stSendFail : ChangelogState := { stDemo with http := fun _u => .sendErr }

def cF1 : Commit :=
  { message := "fix(pkga): correct layout overflow"
    hash := "a1b2c3d4e5f6", author := some "alice", datetime := 0 }

def cF2 : Commit :=
  { message := "fix(pkga): handle empty list (#42)\n\nmore detail"
    hash := "b2c3d4e5f6a7", author := some "bob", datetime := 0 }

def cF3 : Commit :=
  { message := "docs: update readme"
    hash := "c3d4e5f6a7b8", author := some "carol", datetime := 0 }

/-- A conventional fix commit scoped to the hyphenated package `pkg-a`. -/
def cHyphen : Commit :=
  { message := "fix(pkg-a): correct rounding"
    hash := "d4e5f6a7b8c9", author := some "dave", datetime := 0 }

/-- A matching commit whose author identity could not be parsed. -/
def cNoAuthor : Commit :=
  { message := "fix(pkga): tweak spacing"
    hash := "deadbeef0000", author := none, datetime := 0 }

/-! ### Claim theorems -/

/-- Claim C2: for every boundary pair, the walker's output never contains
a commit equal to the end boundary when that boundary has a parent; when
the end boundary has no parent (it is the root commit of the walked
history), it is included as the last element of the output. -/
theorem C2_walker_end_boundary (repo : GitRepo) (cr : CommitRange)
    (fuel : Nat) (l : List Commit)
    (hok : get_commit_list_by_commit_range repo cr fuel = .ok l) :
    ((repo.parent cr.end_).isSome → cr.end_ ∉ l.map Commit.hash) ∧
    (repo.parent cr.end_ = none → cr.end_ ∈ revwalkFrom repo cr.start fuel →
      (l.map Commit.hash).getLast? = some cr.end_) := by
  simp only [get_commit_list_by_commit_range] at hok
  constructor
  · intro hpar
    have heif : (repo.parent cr.end_).isNone = false := by
      cases hp : repo.parent cr.end_
      · rw [hp] at hpar; simp at hpar
      · simp
    rw [heif] at hok
    rw [walk_loop_ok_map_hash repo cr.end_ false _ l hok]
    exact traversed_not_mem_end cr.end_ _
  · intro hpar hmem
    have heif : (repo.parent cr.end_).isNone = true := by rw [hpar]; rfl
    rw [heif] at hok
    rw [walk_loop_ok_map_hash repo cr.end_ true _ l hok, traversed_root_all]
    exact revwalkFrom_root_last repo cr.end_ fuel cr.start hmem hpar

/-- Witness for C2 at `repoDemo`: the window `(c3, c1)` walks to the root
`c1`, which is included last; both boundary conclusions hold at this
concrete instance. -/
theorem C2_walker_end_boundary_witness :
    ((repoDemo.parent "c1").isSome →
      "c1" ∉ ([{ message := "commit c3", hash := "c3", author := some "alice",
                 datetime := 1700000000 },
               { message := "commit c2", hash := "c2", author := some "alice",
                 datetime := 1700000000 },
               { message := "commit c1", hash := "c1", author := some "alice",
                 datetime := 1700000000 }] : List Commit).map Commit.hash) ∧
    (repoDemo.parent "c1" = none → "c1" ∈ revwalkFrom repoDemo "c3" 5 →
      ((([{ message := "commit c3", hash := "c3", author := some "alice",
            datetime := 1700000000 },
          { message := "commit c2", hash := "c2", author := some "alice",
            datetime := 1700000000 },
          { message := "commit c1", hash := "c1", author := some "alice",
            datetime := 1700000000 }] : List Commit).map Commit.hash).getLast?
        = some "c1")) :=
  C2_walker_end_boundary repoDemo
    (mk_range repoDemo "p@2.0.0" "c3" "c1") 5 _ rfl

/-- Claim C8: an undecodable message anywhere among the traversed commits
of a release window fails the whole walk with `ErrorKind::Git`; on
success, the output covers every traversed commit (all-or-nothing). -/
theorem C8_walk_all_or_nothing (repo : GitRepo) (cr : CommitRange)
    (fuel : Nat) :
    ((∃ c ∈ traversedHashes cr.end_ (repo.parent cr.end_).isNone
        (revwalkFrom repo cr.start fuel), repo.message c = none) →
      get_commit_list_by_commit_range repo cr fuel = .error .git) ∧
    (∀ l, get_commit_list_by_commit_range repo cr fuel = .ok l →
      l.map Commit.hash = traversedHashes cr.end_ (repo.parent cr.end_).isNone
        (revwalkFrom repo cr.start fuel)) := by
  constructor
  · intro hex
    simp only [get_commit_list_by_commit_range]
    exact walk_loop_msg_none_error repo cr.end_ _ _ hex
  · intro l hok
    simp only [get_commit_list_by_commit_range] at hok
    exact walk_loop_ok_map_hash repo cr.end_ _ _ l hok

/-- Witness for C8 at `repoBadMsg`: commit `c2`'s message is undecodable
and the whole walk of the window `(c3, zz)` errors with `GitError`. -/
theorem C8_walk_all_or_nothing_witness :
    repoBadMsg.message "c2" = none ∧
    get_commit_list_by_commit_range repoBadMsg
      (mk_range repoBadMsg "p@2.0.0" "c3" "zz") 5 = .error .git :=
  ⟨rfl, (C8_walk_all_or_nothing repoBadMsg
    (mk_range repoBadMsg "p@2.0.0" "c3" "zz") 5).1 (by decide)⟩

/-- Claim C5: the classifier's output has each commit hash at most once —
a hash already emitted is never emitted again — and emitted entries follow
input commit order: the emitted markdown list is exactly `get_md_message`
mapped over `classify_commits`, whose hash list has no duplicates and
which is a sublist (hence in input order) of the input commit list. -/
theorem C5_classifier_dedup_order (st : ChangelogState)
    (commit_list : List Commit) (package : String) :
    gen_change_log_by_commit_list st commit_list package =
      md_mapM st (classify_commits package commit_list) ∧
    ((classify_commits package commit_list).map Commit.hash).Nodup ∧
    List.Sublist (classify_commits package commit_list) commit_list :=
  ⟨gen_change_log_loop_factors package commit_list st [],
   classify_aux_nodup package commit_list [],
   classify_aux_sublist package commit_list []⟩

/-- Counterexample to C3 as stated: with target package `pkg-a`, a commit
headered `fix(pkg-a): ...` is NOT matched (the capture class
`[0-9a-zA-Z_]*` cannot cross the hyphen), so the classifier returns no
entries instead of exactly the `fix(pkg-a)` commits. -/
theorem C3_counterexample :
    commit_matches "pkg-a" "fix(pkg-a): correct rounding" = false ∧
    gen_change_log_by_commit_list stDemo [cHyphen] "pkg-a" =
      .ok ([], stDemo) :=
  ⟨rfl, rfl⟩

/-- Claim C3 (amended to a scope without `-`): for package `pkga`, the
classifier returns exactly the commits headered `fix(pkga): ...` — both
are selected, the unscoped commit is not, and the rendered output has
exactly those two entries. -/
theorem C3_scoped_header_match :
    classify_commits "pkga" [cF1, cF2, cF3] = [cF1, cF2] ∧
    (gen_change_log_by_commit_list stDemo [cF1, cF2, cF3] "pkga").map
        (fun p => p.1) =
      .ok ["fix(pkga): correct layout overflow. [a1b2c3d](https://github.com/acme/widgets/commit/a1b2c3d)",
           "fix(pkga): handle empty list (#42). [#42](https://github.com/acme/widgets/pull/#42) [@bob](https://github.com/bob)"] :=
  ⟨rfl, rfl⟩

/-- Counterexample to C6 as stated: on an empty classified entry list the
composer emits the empty string — an empty body, not a placeholder
bullet. -/
theorem C6_counterexample :
    gen_change_log_to_md [] = "" ∧
    strStartsWith (gen_change_log_to_md []) "* " = false :=
  ⟨rfl, rfl⟩

/-- Claim C6 (amended): on an empty entry list the composer emits an
empty body; a nonempty entry becomes a `* <entry>\n` bullet (no
placeholder logic exists). -/
theorem C6_composer_empty_body :
    gen_change_log_to_md [] = "" ∧
    gen_change_log_to_md ["feat(x): add y"] = "* feat(x): add y\n" :=
  ⟨rfl, rfl⟩

/-- Claim C10 (the code bug): a classified commit whose author field is
absent makes the composition step panic (`expect("author 不存在")` in
`get_md_message`) instead of producing a result. -/
theorem C10_author_none_panics :
    gen_change_log_by_commit_list stDemo [cNoAuthor] "pkga" =
      .error (.panicked "author 不存在") := rfl

/-- Claim C1: for a package whose filtered tag list is `[t1, t2, t3]` in
ascending version order, full-history mode returns exactly two release
windows, `(t3, t2)`'s commits then `(t2, t1)`'s, newest-to-oldest. -/
theorem C1_full_history_windows (repo : GitRepo) (package_name : String)
    (fuel : Nat) (t1 t2 t3 c1 c2 c3 : String)
    (htags : get_tag_list repo package_name = .ok [t1, t2, t3])
    (h1 : repo.tagTarget t1 = some c1)
    (h2 : repo.tagTarget t2 = some c2)
    (h3 : repo.tagTarget t3 = some c3) :
    get_all_tag_range repo package_name fuel = .ok
      [{ latest_tag := { name := t3,
                         date_time := repo.fmtDate (repo.timeOf c3) },
         start := c3, end_ := c2 },
       { latest_tag := { name := t2,
                         date_time := repo.fmtDate (repo.timeOf c2) },
         start := c2, end_ := c1 }] := by
  have key : get_all_tag_range repo package_name fuel =
      all_range_loop repo fuel [t1, t2, t3] 2 := by
    simp only [get_all_tag_range, htags]
    rfl
  have r1 : resolve_range repo fuel t3 (some t2) =
      .ok (mk_range repo t3 c3 c2) := by
    simp only [resolve_range, h3, h2]
  have r2 : resolve_range repo fuel t2 (some t1) =
      .ok (mk_range repo t2 c2 c1) := by
    simp only [resolve_range, h2, h1]
  have e1 : all_range_loop repo fuel [t1, t2, t3] 2 =
      match resolve_range repo fuel t3 (some t2) with
      | .error e => .error e
      | .ok cr =>
        match all_range_loop repo fuel [t1, t2, t3] 1 with
        | .error e => .error e
        | .ok rest => .ok (cr :: rest) := rfl
  have e2 : all_range_loop repo fuel [t1, t2, t3] 1 =
      match resolve_range repo fuel t2 (some t1) with
      | .error e => .error e
      | .ok cr =>
        match all_range_loop repo fuel [t1, t2, t3] 0 with
        | .error e => .error e
        | .ok rest => .ok (cr :: rest) := rfl
  rw [key, e1, e2, r1, r2]
  rfl

/-- Witness for C1 at `repoDemo`: tags sort to
`[p@1.0.0, p@1.1.0, p@2.0.0]` and full-history mode yields exactly the
windows `(c3, c2)` then `(c2, c1)`. -/
theorem C1_full_history_windows_witness :
    get_tag_list repoDemo "p" = .ok ["p@1.0.0", "p@1.1.0", "p@2.0.0"] ∧
    get_all_tag_range repoDemo "p" 5 = .ok
      [{ latest_tag := { name := "p@2.0.0", date_time := "2023-11-14" },
         start := "c3", end_ := "c2" },
       { latest_tag := { name := "p@1.1.0", date_time := "2023-11-14" },
         start := "c2", end_ := "c1" }] :=
  ⟨rfl, C1_full_history_windows repoDemo "p" 5
    "p@1.0.0" "p@1.1.0" "p@2.0.0" "c1" "c2" "c3" rfl rfl rfl rfl⟩

/-- Counterexample to C4 as stated: in latest mode with exactly one tag,
the `revwalk.nth(0)` end boundary is the first commit the walk yields —
the start commit itself — so `endCommit` equals `startCommit` even though
`startCommit` has a parent (`c1`), rather than being a direct ancestor. -/
theorem C4_counterexample :
    (get_commit_latest_range repoOneTag "p" 5).map
        (fun r => (r.start, r.end_)) = .ok ("c2", "c2") ∧
    repoOneTag.parent "c2" = some "c1" :=
  ⟨rfl, rfl⟩

/-- Claim C4 (amended): in latest mode, a package with exactly one
matching tag yields one window whose `endCommit` is the first commit
yielded by the reverse walk from the tag's target — `startCommit` itself —
so the window is degenerate (`endCommit = startCommit`), not a
parent-step boundary. -/
theorem C4_single_tag_window (repo : GitRepo) (package_name : String)
    (fuel : Nat) (t c : String)
    (htags : get_tag_list repo package_name = .ok [t])
    (ht : repo.tagTarget t = some c) :
    get_commit_latest_range repo package_name fuel = .ok
      { latest_tag := { name := t, date_time := repo.fmtDate (repo.timeOf c) },
        start := c, end_ := c } := by
  have htags' : sort_tags (repo.tag_names.filter
      (fun x => strStartsWith x package_name)) = .ok [t] := htags
  have key : get_commit_latest_range repo package_name fuel =
      resolve_range repo fuel t none := by
    simp only [get_commit_latest_range, htags']
    rfl
  rw [key]
  simp only [resolve_range, ht, revwalkFrom_head, mk_range]

/-- Witness for C4 (amended) at `repoOneTag`. -/
theorem C4_single_tag_window_witness :
    get_tag_list repoOneTag "p" = .ok ["p@1.0.0"] ∧
    repoOneTag.tagTarget "p@1.0.0" = some "c2" ∧
    get_commit_latest_range repoOneTag "p" 5 = .ok
      { latest_tag := { name := "p@1.0.0", date_time := "2023-11-14" },
        start := "c2", end_ := "c2" } :=
  ⟨rfl, rfl, C4_single_tag_window repoOneTag "p" 5 "p@1.0.0" "c2" rfl rfl⟩

/-- Counterexample to C7 as stated: a prefix-matching tag without an
`'@'` separator (here `v1.0.0` under prefix `v`) makes the tag/version
splitter panic (`get(1).unwrap()`), so the index errors instead of
silently filtering the parse failure. -/
theorem C7_counterexample :
    get_tag_list repoNoAt "v" =
      .error (.panicked "called Option.unwrap on a None value") := rfl

/-- Claim C7 (amended): provided every prefix-matching tag name contains
an `'@'` separator, the tag index succeeds, its output contains only
prefix-matching tags whose embedded version parses as a semantic version
(parse failures silently filtered), and the output is sorted ascending by
the parsed version. -/
theorem C7_tag_index_sorted (repo : GitRepo) (package_name : String)
    (hAt : ∀ t ∈ repo.tag_names.filter (fun x => strStartsWith x package_name),
        2 ≤ (strSplit '@' t).length) :
    (get_tag_list repo package_name).isOk = true ∧
    ∀ out, get_tag_list repo package_name = .ok out →
      (∀ t ∈ out, strStartsWith t package_name = true ∧
        (tag_semver t).isSome = true) ∧
      out.Pairwise
        (fun a b => semver_le_opt (tag_semver a) (tag_semver b) = true) := by
  obtain ⟨pairs, hpairs, hmemp⟩ := collect_ok_of_at _ hAt
  have hout : get_tag_list repo package_name = .ok
      ((insertionSort (fun a b => SemVer.le a.2 b.2) pairs).map
        (fun p => p.1)) := by
    simp only [get_tag_list, sort_tags, hpairs]
  refine ⟨by rw [hout]; rfl, ?_⟩
  intro out h
  rw [hout] at h
  injection h with h
  subst h
  constructor
  · intro t ht
    rcases List.mem_map.mp ht with ⟨p, hp, rfl⟩
    have hp' : p ∈ pairs :=
      (mem_insertionSort (fun a b => SemVer.le a.2 b.2) p pairs).mp hp
    obtain ⟨hmemf, hsem⟩ := hmemp p hp'
    refine ⟨(List.mem_filter.mp hmemf).2, ?_⟩
    rw [hsem]
    rfl
  · rw [List.pairwise_map]
    have hs := pairwise_insertionSort (fun a b => SemVer.le a.2 b.2)
      (fun a b c hab hbc => SemVer.le_trans a.2 b.2 c.2 hab hbc)
      (fun a b => SemVer.le_total a.2 b.2) pairs
    refine hs.imp_of_mem ?_
    intro a b ha hb hle
    have hsa := (hmemp a
      ((mem_insertionSort (fun a b => SemVer.le a.2 b.2) a pairs).mp ha)).2
    have hsb := (hmemp b
      ((mem_insertionSort (fun a b => SemVer.le a.2 b.2) b pairs).mp hb)).2
    simp only [semver_le_opt, hsa, hsb]
    exact hle

/-- Witness for C7 at `repoDemo`: all four prefix-`p` tags contain `'@'`
and the index succeeds. -/
theorem C7_tag_index_sorted_witness :
    2 ≤ (strSplit '@' "p@1.0.0").length ∧
    (get_tag_list repoDemo "p").isOk = true :=
  ⟨by decide, (C7_tag_index_sorted repoDemo "p" (by decide)).1⟩

/-- Counterexample to C9 as stated: a transport-level REST failure
(`send()` returning `Err`) is `unwrap`ped, so resolving the attribution of
a commit with a pull-request reference panics instead of falling back to
the raw author string. -/
theorem C9_counterexample :
    get_md_message stSendFail cF2 =
      .error (.panicked "called Result.unwrap on an Err value") := rfl

/-- Claim C9 (amended): when the REST response fails to deserialize
(error responses, rate limiting, malformed bodies), the resolver falls
back to the raw commit-author string as the displayed handle, leaves the
cache untouched and raises no error; only a transport-level `send`
failure panics. -/
theorem C9_json_failure_falls_back (st : ChangelogState)
    (pr_number author : String)
    (hcache : st.author_github_map.lookup author = none)
    (htok : st.token.isSome = true)
    (hhttp : st.http (pull_request_url st pr_number) = .jsonErr) :
    get_pr_user_name st pr_number author = .ok (author, st) := by
  cases htk : st.token with
  | none => rw [htk] at htok; simp at htok
  | some tok =>
    simp only [get_pr_user_name, hcache, htk, hhttp]

/-- Witness for C9 (amended) at `stDemo` (whose REST lookups return
undeserializable bodies): author `bob` is returned unchanged with no
error. -/
theorem C9_json_failure_falls_back_witness :
    stDemo.author_github_map.lookup "bob" = none ∧
    stDemo.token.isSome = true ∧
    stDemo.http (pull_request_url stDemo "#42") = .jsonErr ∧
    get_pr_user_name stDemo "#42" "bob" = .ok ("bob", stDemo) :=
  ⟨rfl, rfl, rfl, C9_json_failure_falls_back stDemo "#42" "bob" rfl rfl rfl⟩

end Doctor
